import Mathlib

/-!
# Verification of the `cpp-tp` thread pool (`cpp-tp.hpp`, class `ThreadPool`)

Shallow embedding of the pool's lifecycle and synchronization engine.
Every mutation of the shared state in the C++ source happens inside a
critical section of the single management mutex, so each critical
section is embedded as one atomic Lean function on a `Pool` record that
mirrors the class data members:

* `m_stopped`, `m_waiting`, `m_pending_jobs` (an `ssize_t`, hence `Int`),
  `m_job_queue` (jobs are opaque callables, identified here by `Nat` ids;
  the head of the list is the front of the queue);
* the worker threads are modelled by a list of `WorkerPhase`s, one per
  entry of `m_worker_threads` (`idle` = inside the condition-variable
  wait at the top of `workerLoop`, `busy j` = executing job `j` outside
  the lock, `exited` = broke out of the loop);
* threads blocked in `wait()` on `m_counter_cv` are counted by
  `blockedWaiters`; a `notify_one` on that condition variable moves one
  of them to `wokenWaiters` (no spurious wakeups are assumed: the claims
  are about guaranteed behaviour).

Concurrency is modelled by the labelled small-step relation `Step`
(interleaving of the critical sections) and finite executions by `Trace`.
-/

inductive WorkerPhase : Type
  | idle : WorkerPhase
  | busy : Nat → WorkerPhase
  | exited : WorkerPhase
deriving DecidableEq

/-- Which condition-variable signal a critical section emits as it ends
(`m_management_cv` or `m_counter_cv`); `notifyOne` wakes at most one
blocked thread, `notifyAll` wakes all of them. -/
inductive CvEffect : Type
  | silent : CvEffect
  | notifyOne : CvEffect
  | notifyAll : CvEffect
deriving DecidableEq

/-- The shared state of `class ThreadPool`. -/
structure Pool : Type where
  stopped : Bool          -- m_stopped
  waiting : Bool          -- m_waiting
  queue : List Nat        -- m_job_queue (head = front)
  pending : Int           -- ssize_t m_pending_jobs
  workers : List WorkerPhase   -- m_worker_threads
  blockedWaiters : Nat    -- threads blocked in m_counter_cv.wait
  wokenWaiters : Nat      -- waiters notified but not yet returned
deriving DecidableEq

/-- Source `addJob`: under the lock, `++m_pending_jobs`, push the job at the back
of `m_job_queue`, then `m_management_cv.notify_one()`. -/
def addJob (s : Pool) (j : Nat) : Pool × CvEffect :=
  ({ s with pending := s.pending + 1, queue := s.queue ++ [j] },
   CvEffect.notifyOne)

/-- Source `start(worker_count)`: under the lock, fail if `!m_stopped`; otherwise
clear `m_stopped`, replace `worker_count` by `hardware_concurrency` (the
parameter `hw`) when it is `0`, and emplace that many worker threads, each
entering `workerLoop`. Returns the new state and the `bool` result. -/
def start (s : Pool) (worker_count : Nat) (hw : Nat) : Pool × Bool :=
  if !s.stopped then
    (s, false)
  else
    let n := if worker_count = 0 then hw else worker_count
    ({ s with stopped := false,
              workers := s.workers ++ List.replicate n WorkerPhase.idle },
     true)

/-- The locked section of `stop(clear_queue)`: fail if `m_stopped`;
otherwise set `m_stopped`, clear `m_job_queue` iff `clear_queue`
(note: `m_pending_jobs` is NOT decremented for the discarded jobs),
then `m_management_cv.notify_all()`.  The subsequent join loop is the
separate `Step.stopJoinOp` transition, which blocks until every worker
has exited its loop. -/
def stopBegin (s : Pool) (clear_queue : Bool) : Pool × Bool × CvEffect :=
  if s.stopped then
    (s, false, CvEffect.silent)
  else
    ({ s with stopped := true,
              queue := if clear_queue then [] else s.queue },
     true, CvEffect.notifyAll)

/-- The default value of `stop`'s `clear_queue` parameter
(`bool stop(bool clear_queue = true)`). -/
def stopClearQueueDefault : Bool := true

/-- The destructor `~ThreadPool()`: its body is exactly `stop();`, i.e. a call
of `stop` with its default argument. -/
def destructorBegin (s : Pool) : Pool × Bool × CvEffect :=
  stopBegin s stopClearQueueDefault

/-- Source `clearQueue()`: under the lock, record `m_job_queue.size()`, subtract
it from `m_pending_jobs`, empty the queue, return the recorded count. -/
def clearQueue (s : Pool) : Pool × Nat :=
  let queued_jobs_cleared := s.queue.length
  ({ s with pending := s.pending - queued_jobs_cleared, queue := [] },
   queued_jobs_cleared)

/-- Source `pendingJobs()`: snapshot of `m_pending_jobs` under the lock. -/
def pendingJobs (s : Pool) : Int := s.pending

/-- Source `queuedJobs()`: snapshot of `m_job_queue.size()` under the lock. -/
def queuedJobs (s : Pool) : Nat := s.queue.length

/-- Source `runningJobs()`: `m_pending_jobs - m_job_queue.size()` under the lock. -/
def runningJobs (s : Pool) : Int := s.pending - s.queue.length

/-- Source `isStopped()`: reads `m_stopped`. -/
def isStopped (s : Pool) : Bool := s.stopped

/-- The check at the head of `wait()`: with the lock held, if
`m_pending_jobs > 0` set `m_waiting` and block on `m_counter_cv`
(second component `true` = the caller blocks); otherwise return at once
with nothing changed. -/
def waitCheck (s : Pool) : Pool × Bool :=
  if s.pending > 0 then
    ({ s with waiting := true, blockedWaiters := s.blockedWaiters + 1 }, true)
  else
    (s, false)

/-- A woken waiter whose predicate `m_pending_jobs == 0` holds returns
from `wait()`, first executing `m_waiting = false`. -/
def waitExit (s : Pool) : Pool :=
  { s with waiting := false, wokenWaiters := s.wokenWaiters - 1 }

/-- A woken waiter whose predicate fails goes back to sleep on the
condition variable. -/
def waitReblock (s : Pool) : Pool :=
  { s with wokenWaiters := s.wokenWaiters - 1,
           blockedWaiters := s.blockedWaiters + 1 }

/-- Overwrite worker `i`'s phase. -/
def setWorker (s : Pool) (i : Nat) (p : WorkerPhase) : Pool :=
  { s with workers := s.workers.set i p }

/-- The first critical section of a `workerLoop` iteration, entered once
the wait predicate `!m_job_queue.empty() || m_stopped` holds: if
`!m_stopped`, take the job at the front of the queue and pop it (the
worker goes on to run it outside the lock); otherwise `break` out of the
loop without touching the queue. -/
def workerDequeue (s : Pool) (i : Nat) : Pool :=
  if s.stopped then
    setWorker s i WorkerPhase.exited
  else
    match s.queue with
    | [] => s          -- unreachable: the wait predicate guarantees a job
    | j :: rest => { setWorker s i (WorkerPhase.busy j) with queue := rest }

/-- The second critical section of a `workerLoop` iteration, after the
dequeued job has run: `--m_pending_jobs`; if the count is now `0` and
`m_waiting`, `m_counter_cv.notify_one()` — which wakes at most one of the
blocked waiters.  The worker then loops back to the condition wait. -/
def workerComplete (s : Pool) (i : Nat) : Pool :=
  if s.pending - 1 = 0 ∧ s.waiting then
    if 0 < s.blockedWaiters then
      { s with pending := s.pending - 1,
               workers := s.workers.set i WorkerPhase.idle,
               blockedWaiters := s.blockedWaiters - 1,
               wokenWaiters := s.wokenWaiters + 1 }
    else
      { s with pending := s.pending - 1,
               workers := s.workers.set i WorkerPhase.idle }
  else
    { s with pending := s.pending - 1,
             workers := s.workers.set i WorkerPhase.idle }

/-- Labels of the atomic transitions. -/
inductive Label : Type
  | addOp : Nat → Label
  | startOp : Nat → Nat → Label   -- worker_count, hardware_concurrency
  | stopBeginOp : Bool → Label
  | stopJoinOp : Label
  | clearQueueOp : Label
  | dequeueOp : Nat → Label       -- worker index
  | completeOp : Nat → Label      -- worker index
  | waitCallOp : Label
  | waitExitOp : Label
  | waitReblockOp : Label
deriving DecidableEq

/-- Interleaving small-step semantics: one step per critical section of
the source, with the enabling condition each blocking primitive imposes. -/
inductive Step : Pool → Label → Pool → Prop
  | addOp (s : Pool) (j : Nat) :
      Step s (Label.addOp j) (addJob s j).1
  | startOp (s : Pool) (n hw : Nat) :
      Step s (Label.startOp n hw) (start s n hw).1
  | stopBeginOp (s : Pool) (c : Bool) :
      Step s (Label.stopBeginOp c) (stopBegin s c).1
  | stopJoinOp (s : Pool)
      (hall : ∀ w ∈ s.workers, w = WorkerPhase.exited) :
      Step s Label.stopJoinOp { s with workers := [] }
  | clearQueueOp (s : Pool) :
      Step s Label.clearQueueOp (clearQueue s).1
  | dequeueOp (s : Pool) (i : Nat)
      (hidle : s.workers[i]? = some WorkerPhase.idle)
      (hpred : s.queue ≠ [] ∨ s.stopped = true) :
      Step s (Label.dequeueOp i) (workerDequeue s i)
  | completeOp (s : Pool) (i : Nat) (j : Nat)
      (hbusy : s.workers[i]? = some (WorkerPhase.busy j)) :
      Step s (Label.completeOp i) (workerComplete s i)
  | waitCallOp (s : Pool) :
      Step s Label.waitCallOp (waitCheck s).1
  | waitExitOp (s : Pool)
      (hwoken : s.wokenWaiters > 0) (hzero : s.pending = 0) :
      Step s Label.waitExitOp (waitExit s)
  | waitReblockOp (s : Pool)
      (hwoken : s.wokenWaiters > 0) (hnz : s.pending ≠ 0) :
      Step s Label.waitReblockOp (waitReblock s)

/-- Finite executions, recording the labels taken. -/
inductive Trace : Pool → List Label → Pool → Prop
  | refl (s : Pool) : Trace s [] s
  | cons {s u t : Pool} {l : Label} {ls : List Label} :
      Step s l u → Trace u ls t → Trace s (l :: ls) t

/-- Holds (as `true`) iff the label is not a `start` call. -/
def notStart (l : Label) : Bool :=
  match l with
  | Label.startOp _ _ => false
  | _ => true

/-- Holds (as `true`) iff no label of the list is a `start` call. -/
def noStart (ls : List Label) : Bool := ls.all notStart

/-- Holds (as `true`) iff the phase is `busy _`. -/
def isBusy (w : WorkerPhase) : Bool :=
  match w with
  | WorkerPhase.busy _ => true
  | _ => false

/-- Number of workers currently executing a job. -/
def busyCount (ws : List WorkerPhase) : Nat := ws.countP isBusy

/-- The pending-jobs accounting equality of the spec:
`pending = (jobs in queue) + (jobs currently executing)`. -/
def accountingInv (s : Pool) : Prop :=
  s.pending = (s.queue.length : Int) + (busyCount s.workers : Int)

/-- The weaker inequality that survives `stop(clear_queue = true)`:
the counter dominates queue length plus running jobs. -/
def accountingLe (s : Pool) : Prop :=
  (s.queue.length : Int) + (busyCount s.workers : Int) ≤ s.pending

instance (s : Pool) : Decidable (accountingInv s) := by
  unfold accountingInv; infer_instance

instance (s : Pool) : Decidable (accountingLe s) := by
  unfold accountingLe; infer_instance

/-! ## Frame lemmas for the atomic critical sections -/

theorem stopBegin_of_stopped (s : Pool) (c : Bool) (h : s.stopped = true) :
    stopBegin s c = (s, false, CvEffect.silent) := by
  unfold stopBegin; simp [h]

theorem stopBegin_of_run (s : Pool) (c : Bool) (h : s.stopped = false) :
    stopBegin s c =
      ({ s with stopped := true, queue := if c then [] else s.queue },
       true, CvEffect.notifyAll) := by
  unfold stopBegin; simp [h]

theorem start_of_run (s : Pool) (n hw : Nat) (h : s.stopped = false) :
    start s n hw = (s, false) := by
  unfold start; simp [h]

theorem start_of_stopped (s : Pool) (n hw : Nat) (h : s.stopped = true) :
    start s n hw =
      ({ s with stopped := false,
                workers := s.workers ++
                  List.replicate (if n = 0 then hw else n) WorkerPhase.idle },
       true) := by
  unfold start; simp [h]

theorem workerDequeue_of_stopped (s : Pool) (i : Nat) (h : s.stopped = true) :
    workerDequeue s i = setWorker s i WorkerPhase.exited := by
  unfold workerDequeue; simp [h]

theorem workerDequeue_of_run (s : Pool) (i : Nat) (j : Nat) (rest : List Nat)
    (h : s.stopped = false) (hq : s.queue = j :: rest) :
    workerDequeue s i =
      { setWorker s i (WorkerPhase.busy j) with queue := rest } := by
  unfold workerDequeue; rw [hq]; simp [h]

@[simp] theorem waitCheck_stopped (s : Pool) : (waitCheck s).1.stopped = s.stopped := by
  unfold waitCheck; split <;> rfl

@[simp] theorem waitCheck_queue (s : Pool) : (waitCheck s).1.queue = s.queue := by
  unfold waitCheck; split <;> rfl

@[simp] theorem waitCheck_pending (s : Pool) : (waitCheck s).1.pending = s.pending := by
  unfold waitCheck; split <;> rfl

@[simp] theorem waitCheck_workers (s : Pool) : (waitCheck s).1.workers = s.workers := by
  unfold waitCheck; split <;> rfl

@[simp] theorem workerComplete_stopped (s : Pool) (i : Nat) :
    (workerComplete s i).stopped = s.stopped := by
  unfold workerComplete
  split
  · split <;> rfl
  · rfl

@[simp] theorem workerComplete_queue (s : Pool) (i : Nat) :
    (workerComplete s i).queue = s.queue := by
  unfold workerComplete
  split
  · split <;> rfl
  · rfl

@[simp] theorem workerComplete_pending (s : Pool) (i : Nat) :
    (workerComplete s i).pending = s.pending - 1 := by
  unfold workerComplete
  split
  · split <;> rfl
  · rfl

@[simp] theorem workerComplete_workers (s : Pool) (i : Nat) :
    (workerComplete s i).workers = s.workers.set i WorkerPhase.idle := by
  unfold workerComplete
  split
  · split <;> rfl
  · rfl

/-! ## Counting busy workers -/

@[simp] theorem isBusy_idle : isBusy WorkerPhase.idle = false := rfl

@[simp] theorem isBusy_busy (j : Nat) : isBusy (WorkerPhase.busy j) = true := rfl

@[simp] theorem isBusy_exited : isBusy WorkerPhase.exited = false := rfl

theorem busyCount_set (p : WorkerPhase) {ws : List WorkerPhase} {i : Nat}
    {w : WorkerPhase} (h : ws[i]? = some w) :
    busyCount (ws.set i p) =
      busyCount ws - (if isBusy w then 1 else 0) + (if isBusy p then 1 else 0) := by
  obtain ⟨hlt, hget⟩ := List.getElem?_eq_some.mp h
  unfold busyCount
  rw [List.countP_set isBusy ws i p hlt, hget]

theorem busyCount_pos {ws : List WorkerPhase} {i j : Nat}
    (h : ws[i]? = some (WorkerPhase.busy j)) : 0 < busyCount ws := by
  unfold busyCount
  rw [List.countP_pos_iff]
  exact ⟨_, List.getElem?_mem h, rfl⟩

theorem busyCount_set_not_busy {ws : List WorkerPhase} {i : Nat}
    {w p : WorkerPhase} (h : ws[i]? = some w)
    (hw : isBusy w = false) (hp : isBusy p = false) :
    busyCount (ws.set i p) = busyCount ws := by
  rw [busyCount_set p h, hw, hp]; simp

theorem busyCount_set_busy_to_idle {ws : List WorkerPhase} {i j : Nat}
    (h : ws[i]? = some (WorkerPhase.busy j)) :
    busyCount (ws.set i WorkerPhase.idle) + 1 = busyCount ws := by
  have hpos := busyCount_pos h
  rw [busyCount_set WorkerPhase.idle h]
  simp
  omega

theorem busyCount_set_idle_to_busy {ws : List WorkerPhase} {i j : Nat}
    (h : ws[i]? = some WorkerPhase.idle) :
    busyCount (ws.set i (WorkerPhase.busy j)) = busyCount ws + 1 := by
  rw [busyCount_set (WorkerPhase.busy j) h]
  simp [isBusy]

theorem busyCount_replicate_idle (n : Nat) :
    busyCount (List.replicate n WorkerPhase.idle) = 0 := by
  unfold busyCount
  rw [List.countP_eq_zero]
  intro w hw
  rw [List.eq_of_mem_replicate hw]
  simp [isBusy]

theorem busyCount_append (ws1 ws2 : List WorkerPhase) :
    busyCount (ws1 ++ ws2) = busyCount ws1 + busyCount ws2 :=
  List.countP_append ..

theorem busyCount_all_exited {ws : List WorkerPhase}
    (h : ∀ w ∈ ws, w = WorkerPhase.exited) : busyCount ws = 0 := by
  unfold busyCount
  rw [List.countP_eq_zero]
  intro w hw
  rw [h w hw]
  simp [isBusy]

theorem getElem?_set_busy_elim {ws : List WorkerPhase} {i k j : Nat}
    {p : WorkerPhase} (hp : isBusy p = false)
    (h : (ws.set i p)[k]? = some (WorkerPhase.busy j)) :
    ws[k]? = some (WorkerPhase.busy j) := by
  rcases eq_or_ne i k with rfl | hne
  · by_cases hlt : i < ws.length
    · rw [List.getElem?_set_eq_of_lt p hlt, Option.some_inj] at h
      subst h
      simp at hp
    · rwa [List.set_eq_of_length_le (Nat.le_of_not_lt hlt)] at h
  · rwa [List.getElem?_set_ne hne] at h

/-! ## Behaviour of steps and traces after `stop` has set `m_stopped` -/

theorem noStart_cons (l : Label) (ls : List Label) :
    noStart (l :: ls) = (notStart l && noStart ls) :=
  List.all_cons

theorem noStart_append (ls1 ls2 : List Label) :
    noStart (ls1 ++ ls2) = (noStart ls1 && noStart ls2) :=
  List.all_append

/-- Every step except a `start` call keeps `m_stopped` set. -/
theorem step_keeps_stopped {s s' : Pool} {l : Label} (hstep : Step s l s')
    (hns : notStart l = true) (hst : s.stopped = true) : s'.stopped = true := by
  cases hstep with
  | addOp j => exact hst
  | startOp n hw => simp [notStart] at hns
  | stopBeginOp c => rw [stopBegin_of_stopped s c hst]; exact hst
  | stopJoinOp hall => exact hst
  | clearQueueOp => exact hst
  | dequeueOp k hidle hpred => rw [workerDequeue_of_stopped s k hst]; exact hst
  | completeOp k m hbusy => rw [workerComplete_stopped]; exact hst
  | waitCallOp => rw [waitCheck_stopped]; exact hst
  | waitExitOp h1 h2 => exact hst
  | waitReblockOp h1 h2 => exact hst

/-- While `m_stopped` is set, no step except a `start` call can make a
worker busy: a worker busy afterwards was already busy on the same job. -/
theorem step_busy_mono {s s' : Pool} {l : Label} (hstep : Step s l s')
    (hns : notStart l = true) (hst : s.stopped = true)
    {i j : Nat} (hb : s'.workers[i]? = some (WorkerPhase.busy j)) :
    s.workers[i]? = some (WorkerPhase.busy j) := by
  cases hstep with
  | addOp k => exact hb
  | startOp n hw => simp [notStart] at hns
  | stopBeginOp c => rwa [stopBegin_of_stopped s c hst] at hb
  | stopJoinOp hall => simp at hb
  | clearQueueOp => exact hb
  | dequeueOp k hidle hpred =>
      rw [workerDequeue_of_stopped s k hst] at hb
      exact getElem?_set_busy_elim isBusy_exited hb
  | completeOp k m hbusy =>
      rw [workerComplete_workers] at hb
      exact getElem?_set_busy_elim isBusy_idle hb
  | waitCallOp => rwa [waitCheck_workers] at hb
  | waitExitOp h1 h2 => exact hb
  | waitReblockOp h1 h2 => exact hb

/-- While `m_stopped` is set, a busy worker stays busy on its job under
every step except its own completion (and except a `start` call). -/
theorem step_busy_kept {s s' : Pool} {l : Label} (hstep : Step s l s')
    (hns : notStart l = true) (hst : s.stopped = true)
    {i j : Nat} (hb : s.workers[i]? = some (WorkerPhase.busy j))
    (hne : l ≠ Label.completeOp i) :
    s'.workers[i]? = some (WorkerPhase.busy j) := by
  cases hstep with
  | addOp k => exact hb
  | startOp n hw => simp [notStart] at hns
  | stopBeginOp c => rwa [stopBegin_of_stopped s c hst]
  | stopJoinOp hall =>
      have hmem := List.getElem?_mem hb
      exact absurd (hall _ hmem) (by simp)
  | clearQueueOp => exact hb
  | dequeueOp k hidle hpred =>
      rw [workerDequeue_of_stopped s k hst]
      have hki : k ≠ i := by
        intro he
        subst he
        rw [hidle] at hb
        simp at hb
      show (s.workers.set k WorkerPhase.exited)[i]? = some (WorkerPhase.busy j)
      rwa [List.getElem?_set_ne hki]
  | completeOp k m hbusy =>
      have hki : k ≠ i := fun he => hne (congrArg Label.completeOp he)
      rw [workerComplete_workers, List.getElem?_set_ne hki]
      exact hb
  | waitCallOp => rwa [waitCheck_workers]
  | waitExitOp h1 h2 => exact hb
  | waitReblockOp h1 h2 => exact hb

/-- The flag `m_stopped` stays set along any trace free of `start` calls. -/
theorem trace_keeps_stopped {s s' : Pool} {ls : List Label} (ht : Trace s ls s') :
    noStart ls = true → s.stopped = true → s'.stopped = true := by
  induction ht with
  | refl => exact fun _ h => h
  | cons hstep htr ih =>
      intro hns hst
      rw [noStart_cons, Bool.and_eq_true] at hns
      exact ih hns.2 (step_keeps_stopped hstep hns.1 hst)

/-- Along any `start`-free trace from a stopped pool, the busy set only
shrinks: no job ever moves from not-yet-started to started. -/
theorem trace_busy_mono {s s' : Pool} {ls : List Label} (ht : Trace s ls s') :
    noStart ls = true → s.stopped = true →
    ∀ (i j : Nat), s'.workers[i]? = some (WorkerPhase.busy j) →
      s.workers[i]? = some (WorkerPhase.busy j) := by
  induction ht with
  | refl => intro _ _ i j hb; exact hb
  | cons hstep htr ih =>
      intro hns hst i j hb
      rw [noStart_cons, Bool.and_eq_true] at hns
      exact step_busy_mono hstep hns.1 hst
        (ih hns.2 (step_keeps_stopped hstep hns.1 hst) i j hb)

/-- Along any `start`-free trace from a stopped pool, a worker that was
busy stays busy on the same job until its completion step occurs. -/
theorem trace_busy_until_complete {s s' : Pool} {ls : List Label}
    (ht : Trace s ls s') :
    noStart ls = true → s.stopped = true →
    ∀ (i j : Nat), s.workers[i]? = some (WorkerPhase.busy j) →
      Label.completeOp i ∉ ls →
      s'.workers[i]? = some (WorkerPhase.busy j) := by
  induction ht with
  | refl => intro _ _ i j hb _; exact hb
  | cons hstep htr ih =>
      intro hns hst i j hb hnotin
      rw [noStart_cons, Bool.and_eq_true] at hns
      have hne : _ ≠ Label.completeOp i := fun he =>
        hnotin (he ▸ List.mem_cons_self _ _)
      exact ih hns.2 (step_keeps_stopped hstep hns.1 hst) i j
        (step_busy_kept hstep hns.1 hst hb hne)
        (fun hm => hnotin (List.mem_cons_of_mem _ hm))

/-- A trace along a concatenated label list splits at the seam. -/
theorem trace_append_split {s t : Pool} {ls1 ls2 : List Label}
    (ht : Trace s (ls1 ++ ls2) t) :
    ∃ u, Trace s ls1 u ∧ Trace u ls2 t := by
  induction ls1 generalizing s with
  | nil => exact ⟨s, Trace.refl s, ht⟩
  | cons l ls ih =>
      cases ht with
      | cons hstep htr =>
          obtain ⟨u, h1, h2⟩ := ih htr
          exact ⟨u, Trace.cons hstep h1, h2⟩

/-! ## C1: the pending-jobs accounting -/

/-- C1 (amended): the pending-jobs counter stays ≥ 0 and the equality
`pending = (jobs in queue) + (jobs executing)` is preserved by `addJob`,
`start`, `stop(clear_queue = false)`, `clearQueue`, the worker loop's
dequeue and complete steps, the joins and the `wait` steps — but
`stop(clear_queue = true)` preserves it only when the queue is already
empty (it empties `m_job_queue` without decrementing `m_pending_jobs`).
The inequality `queued + running ≤ pending`, and with it `pending ≥ 0`,
is preserved by every operation without exception. -/
theorem c1_accounting_preservation {s s' : Pool} {l : Label}
    (hstep : Step s l s') :
    ((∀ b : Bool, l = Label.stopBeginOp b → b = false ∨ s.queue = []) →
      accountingInv s → accountingInv s') ∧
    (accountingLe s → accountingLe s' ∧ 0 ≤ s'.pending) := by
  simp only [accountingInv, accountingLe]
  cases hstep with
  | addOp j =>
      refine ⟨fun _ h => ?_, fun h => ⟨?_, ?_⟩⟩ <;>
        simp only [addJob, List.length_append, List.length_cons,
          List.length_nil, Nat.cast_add, Nat.cast_one] <;>
        omega
  | startOp n hw =>
      cases hs : s.stopped with
      | false =>
          rw [start_of_run s n hw hs]
          refine ⟨fun _ h => h, fun h => ⟨h, ?_⟩⟩
          dsimp only
          omega
      | true =>
          rw [start_of_stopped s n hw hs]
          simp only [busyCount_append, busyCount_replicate_idle,
            Nat.add_zero]
          refine ⟨fun _ h => h, fun h => ⟨h, ?_⟩⟩
          dsimp only
          omega
  | stopBeginOp c =>
      cases hs : s.stopped with
      | true =>
          rw [stopBegin_of_stopped s c hs]
          refine ⟨fun _ h => h, fun h => ⟨h, ?_⟩⟩
          dsimp only
          omega
      | false =>
          rw [stopBegin_of_run s c hs]
          constructor
          · intro hside h
            rcases hside c rfl with rfl | hq
            · simpa using h
            · cases c <;> simpa [hq] using h
          · intro h
            dsimp only
            constructor <;> cases c <;> (try simp) <;> omega
  | stopJoinOp hall =>
      have hz : busyCount s.workers = 0 := busyCount_all_exited hall
      have hz2 : busyCount ([] : List WorkerPhase) = 0 := rfl
      refine ⟨fun _ h => ?_, fun h => ⟨?_, ?_⟩⟩ <;>
        dsimp only <;> simp only [hz, hz2] at h ⊢ <;> omega
  | clearQueueOp =>
      refine ⟨fun _ h => ?_, fun h => ⟨?_, ?_⟩⟩ <;>
        simp only [clearQueue, List.length_nil] <;> omega
  | dequeueOp k hidle hpred =>
      cases hs : s.stopped with
      | true =>
          rw [workerDequeue_of_stopped s k hs]
          have hb : busyCount (s.workers.set k WorkerPhase.exited) =
              busyCount s.workers :=
            busyCount_set_not_busy hidle isBusy_idle isBusy_exited
          simp only [setWorker, hb]
          exact ⟨fun _ h => h, fun h => ⟨h, by omega⟩⟩
      | false =>
          have hq : s.queue ≠ [] := by
            rcases hpred with hq | hstop
            · exact hq
            · rw [hs] at hstop; cases hstop
          cases hql : s.queue with
          | nil => exact absurd hql hq
          | cons j0 rest =>
              rw [workerDequeue_of_run s k j0 rest hs hql]
              have hb : busyCount (s.workers.set k (WorkerPhase.busy j0)) =
                  busyCount s.workers + 1 :=
                busyCount_set_idle_to_busy hidle
              simp only [setWorker, hb, hql, List.length_cons,
                Nat.cast_add, Nat.cast_one]
              refine ⟨fun _ h => ?_, fun h => ⟨?_, ?_⟩⟩ <;> omega
  | completeOp k m hbusy =>
      have hb : busyCount (s.workers.set k WorkerPhase.idle) + 1 =
          busyCount s.workers := busyCount_set_busy_to_idle hbusy
      simp only [workerComplete_pending, workerComplete_queue,
        workerComplete_workers]
      refine ⟨fun _ h => ?_, fun h => ⟨?_, ?_⟩⟩ <;> omega
  | waitCallOp =>
      simp only [waitCheck_pending, waitCheck_queue, waitCheck_workers]
      exact ⟨fun _ h => h, fun h => ⟨h, by omega⟩⟩
  | waitExitOp h1 h2 =>
      refine ⟨fun _ h => h, fun h => ⟨h, ?_⟩⟩
      dsimp only [waitExit]
      omega
  | waitReblockOp h1 h2 =>
      refine ⟨fun _ h => h, fun h => ⟨h, ?_⟩⟩
      dsimp only [waitReblock]
      omega

/-- A running pool with one queued job, no workers busy. -/
def c1pool : Pool :=
  { stopped := false, waiting := false, queue := [7], pending := 1,
    workers := [], blockedWaiters := 0, wokenWaiters := 0 }

/-- C1 counterexample: on `c1pool` the accounting equality holds, the
`stop(clear_queue = true)` step is taken, and afterwards the equality is
broken: `pendingJobs` still observes 1 while the queue is empty and no
worker is running, so `stop` with `clear_queue = true` does not preserve
the claimed invariant. -/
theorem c1_accounting_counterexample :
    accountingInv c1pool ∧
    Step c1pool (Label.stopBeginOp true) (stopBegin c1pool true).1 ∧
    ¬ accountingInv (stopBegin c1pool true).1 ∧
    pendingJobs (stopBegin c1pool true).1 = 1 ∧
    queuedJobs (stopBegin c1pool true).1 = 0 ∧
    busyCount (stopBegin c1pool true).1.workers = 0 := by
  refine ⟨by decide, Step.stopBeginOp c1pool true, by decide, by decide,
    by decide, by decide⟩

/-- C1 witness: the amended preservation theorem applied to a concrete
`addJob` step on `c1pool`. -/
theorem c1_accounting_witness :
    accountingInv (addJob c1pool 9).1 ∧ 0 ≤ (addJob c1pool 9).1.pending := by
  have h := c1_accounting_preservation (Step.addOp c1pool 9)
  exact ⟨h.1 (fun b hb => by cases hb) (by decide),
         (h.2 (by decide)).2⟩

/-! ## Sample pool states used to instantiate the theorems -/

/-- A stopped, empty, quiescent pool. -/
def poolA : Pool :=
  { stopped := true, waiting := false, queue := [], pending := 0,
    workers := [], blockedWaiters := 0, wokenWaiters := 0 }

/-- A running pool with one queued job and one idle worker. -/
def poolB : Pool :=
  { stopped := false, waiting := false, queue := [4], pending := 1,
    workers := [WorkerPhase.idle], blockedWaiters := 0, wokenWaiters := 0 }

/-! ## C3: clearQueue -/

/-- C3: `clearQueue` empties the queue (exactly the queued-but-not-yet-
dequeued jobs), leaves the worker phases — in particular every currently
executing job — and the rest of the state untouched, returns the number
of jobs removed, and `pendingJobs` decreases by exactly that count. -/
theorem c3_clearQueue_spec (s : Pool) :
    (clearQueue s).2 = queuedJobs s ∧
    (clearQueue s).1.queue = [] ∧
    queuedJobs (clearQueue s).1 = 0 ∧
    (clearQueue s).1.workers = s.workers ∧
    (clearQueue s).1.stopped = s.stopped ∧
    (clearQueue s).1.waiting = s.waiting ∧
    pendingJobs (clearQueue s).1 = pendingJobs s - ((clearQueue s).2 : Int) :=
  ⟨rfl, rfl, rfl, rfl, rfl, rfl, rfl⟩

/-! ## C4: wait -/

/-- C4: `wait()` returns immediately (with the whole state unchanged) when
the pending-jobs counter is 0; when it is positive the caller blocks, the
blocking entry changes neither the state flag nor the queue nor the
counter nor the workers, and a blocked caller can only return
(`Step .waitExitOp`) when the counter is 0, again leaving flag, queue,
counter and workers unchanged. -/
theorem c4_wait_spec (s : Pool) :
    (pendingJobs s = 0 → waitCheck s = (s, false)) ∧
    (0 < pendingJobs s → (waitCheck s).2 = true) ∧
    ((waitCheck s).1.stopped = s.stopped ∧ (waitCheck s).1.queue = s.queue ∧
      (waitCheck s).1.pending = s.pending ∧
      (waitCheck s).1.workers = s.workers) ∧
    (∀ s' : Pool, Step s Label.waitExitOp s' →
      s.pending = 0 ∧ s'.stopped = s.stopped ∧ s'.queue = s.queue ∧
      s'.pending = s.pending ∧ s'.workers = s.workers) := by
  refine ⟨?_, ?_, ⟨waitCheck_stopped s, waitCheck_queue s,
    waitCheck_pending s, waitCheck_workers s⟩, ?_⟩
  · intro h
    have h0 : s.pending = 0 := h
    simp [waitCheck, h0]
  · intro h
    have h0 : (0 : Int) < s.pending := h
    simp [waitCheck, h0]
  · intro s' hstep
    cases hstep with
    | waitExitOp h1 h2 => exact ⟨h2, rfl, rfl, rfl, rfl⟩

/-- C4 witness: on the quiescent `poolA` (counter 0) `wait` returns at
once with nothing changed. -/
theorem c4_wait_witness : waitCheck poolA = (poolA, false) :=
  (c4_wait_spec poolA).1 rfl

/-! ## C5: FIFO submission and dequeue -/

/-- C5: `addJob` has no precondition — for every state, Running or
Stopped, it appends the job at the tail of the queue, increments the
pending counter by exactly one, issues a single `notify_one` on the
workers' condition variable (which wakes at most one blocked worker), and
changes nothing else; a worker's dequeue always removes the head of the
queue, so the oldest queued job is taken first. -/
theorem c5_fifo_spec (s : Pool) (j : Nat) :
    ((addJob s j).1.queue = s.queue ++ [j] ∧
     pendingJobs (addJob s j).1 = pendingJobs s + 1 ∧
     (addJob s j).2 = CvEffect.notifyOne ∧
     (addJob s j).1.stopped = s.stopped ∧
     (addJob s j).1.workers = s.workers) ∧
    (∀ (i : Nat) (s' : Pool) (rest : List Nat), s.queue = j :: rest →
      s.stopped = false → Step s (Label.dequeueOp i) s' →
      s'.queue = rest ∧ s'.workers[i]? = some (WorkerPhase.busy j)) := by
  refine ⟨⟨rfl, rfl, rfl, rfl, rfl⟩, ?_⟩
  intro i s' rest hq hrun hstep
  cases hstep
  rename_i hpred hidle
  rw [workerDequeue_of_run s i j rest hrun hq]
  obtain ⟨hlt, -⟩ := List.getElem?_eq_some.mp hidle
  refine ⟨rfl, ?_⟩
  show (s.workers.set i (WorkerPhase.busy j))[i]? = _
  rw [List.getElem?_set_eq_of_lt _ hlt]

/-- C5 witness: on `poolB` (queue `[4]`, one idle worker) `addJob 9`
appends at the tail and a dequeue step takes the head job 4. -/
theorem c5_fifo_witness :
    (addJob poolB 4).1.queue = [4, 4] ∧
    (workerDequeue poolB 0).queue = [] ∧
    (workerDequeue poolB 0).workers[0]? = some (WorkerPhase.busy 4) := by
  have h := c5_fifo_spec poolB 4
  have h2 := h.2 0 (workerDequeue poolB 0) [] rfl rfl
    (Step.dequeueOp poolB 0 rfl (Or.inl (by decide)))
  exact ⟨h.1.1, h2.1, h2.2⟩

/-! ## C6: start/stop state conflicts -/

/-- C6: `start` returns `false` and changes nothing iff the pool is
already Running; the locked section of `stop` returns `false` and changes
nothing — in particular no queue change and, since the failing return
happens before the join loop, no joins — iff the pool is already Stopped.
Both are total functions: no exception is modelled or needed. -/
theorem c6_state_conflict_spec (s : Pool) (n hw : Nat) (c : Bool) :
    ((start s n hw).2 = false ↔ s.stopped = false) ∧
    (s.stopped = false → start s n hw = (s, false)) ∧
    ((stopBegin s c).2.1 = false ↔ s.stopped = true) ∧
    (s.stopped = true → stopBegin s c = (s, false, CvEffect.silent)) := by
  cases hs : s.stopped with
  | false =>
      rw [start_of_run s n hw hs, stopBegin_of_run s c hs]
      exact ⟨by simp [hs], fun _ => rfl, by simp [hs],
        fun h => absurd h (by simp [hs])⟩
  | true =>
      rw [start_of_stopped s n hw hs, stopBegin_of_stopped s c hs]
      exact ⟨by simp [hs], fun h => absurd h (by simp [hs]), by simp [hs],
        fun _ => rfl⟩

/-- C6 witness: a second `start` on the running `poolB` fails and is a
no-op; a second `stop` on the stopped `poolA` fails and is a no-op. -/
theorem c6_state_conflict_witness :
    start poolB 1 8 = (poolB, false) ∧
    stopBegin poolA true = (poolA, false, CvEffect.silent) :=
  ⟨(c6_state_conflict_spec poolB 1 8 true).2.1 rfl,
   (c6_state_conflict_spec poolA 1 8 true).2.2.2 rfl⟩

/-! ## C7: start spawns workers -/

/-- C7: from a Stopped pool, `start n` with `n > 0` returns success, sets
the state to Running and spawns exactly `n` worker threads, each of which
is immediately inside the worker loop (phase `idle`, at the condition
wait); `start 0` spawns one worker per hardware execution unit (`hw`)
instead.  Queue and counter are untouched. -/
theorem c7_start_spawns (s : Pool) (n hw : Nat) (hst : s.stopped = true) :
    (start s n hw).2 = true ∧
    (start s n hw).1.stopped = false ∧
    (start s n hw).1.queue = s.queue ∧
    (start s n hw).1.pending = s.pending ∧
    (0 < n → (start s n hw).1.workers =
      s.workers ++ List.replicate n WorkerPhase.idle) ∧
    (n = 0 → (start s n hw).1.workers =
      s.workers ++ List.replicate hw WorkerPhase.idle) ∧
    (start s n hw).1.workers.length =
      s.workers.length + (if n = 0 then hw else n) := by
  rw [start_of_stopped s n hw hst]
  refine ⟨rfl, rfl, rfl, rfl, ?_, ?_, ?_⟩
  · intro hn
    rw [if_neg (by omega)]
  · intro hn
    rw [if_pos hn]
  · dsimp only
    rw [List.length_append, List.length_replicate]

/-- C7 witness: starting the stopped `poolA` with 2 workers (and with 0
workers on a 3-unit machine) spawns exactly those workers. -/
theorem c7_start_witness :
    (start poolA 2 8).2 = true ∧
    (start poolA 2 8).1.workers = [WorkerPhase.idle, WorkerPhase.idle] ∧
    (start poolA 0 3).1.workers =
      [WorkerPhase.idle, WorkerPhase.idle, WorkerPhase.idle] := by
  have h1 := c7_start_spawns poolA 2 8 rfl
  have h2 := c7_start_spawns poolA 0 3 rfl
  refine ⟨h1.1, ?_, ?_⟩
  · rw [h1.2.2.2.2.1 (by omega)]; rfl
  · rw [h2.2.2.2.2.2.1 rfl]; rfl

/-! ## C9: the destructor -/

/-- C9: the destructor body is a call of `stop` with its default argument
`clear_queue = true`, so destroying a Running pool empties the queue —
discarding every queued-but-not-yet-dequeued job — while leaving the
worker phases (hence any in-flight job) and the counter untouched; the
join loop that then waits for the workers is the `stopJoinOp` step. -/
theorem c9_destructor_spec (s : Pool) (hrun : s.stopped = false) :
    destructorBegin s = stopBegin s true ∧
    (destructorBegin s).1.queue = [] ∧
    (destructorBegin s).1.stopped = true ∧
    (destructorBegin s).1.workers = s.workers ∧
    (destructorBegin s).1.pending = s.pending ∧
    (destructorBegin s).2.1 = true := by
  have hd : destructorBegin s = stopBegin s true := rfl
  rw [hd, stopBegin_of_run s true hrun]
  exact ⟨rfl, rfl, rfl, rfl, rfl, rfl⟩

/-- C9 witness: destroying the running `c1pool` (one queued job) discards
the queued job while the counter still reads 1. -/
theorem c9_destructor_witness :
    (destructorBegin c1pool).1.queue = [] ∧
    (destructorBegin c1pool).1.pending = 1 := by
  have h := c9_destructor_spec c1pool rfl
  exact ⟨h.2.1, h.2.2.2.2.1⟩

/-! ## C2: shutdown protocol -/

/-- A stopped pool whose single worker is still executing job 5. -/
def poolC : Pool :=
  { stopped := true, waiting := false, queue := [], pending := 1,
    workers := [WorkerPhase.busy 5], blockedWaiters := 0, wokenWaiters := 0 }

/-- C2: once `stop` has set `m_stopped`, along any execution that contains
no further `start` call (i) no worker ever begins a new dequeue — a worker
busy at the end was already busy on the same job when `m_stopped` was set;
(ii) `stop`'s join loop (`stopJoinOp`, the point where `stop` returns)
can only run after every worker that was mid-job has taken its completion
step; (iii) the join is enabled only when every worker has exited its
loop, and it discards all worker threads. -/
theorem c2_stop_shutdown {s s' : Pool} {ls : List Label}
    (ht : Trace s ls s') (hns : noStart ls = true) (hst : s.stopped = true) :
    (∀ (i j : Nat), s'.workers[i]? = some (WorkerPhase.busy j) →
      s.workers[i]? = some (WorkerPhase.busy j)) ∧
    (∀ (ls1 ls2 : List Label), ls = ls1 ++ Label.stopJoinOp :: ls2 →
      ∀ (i j : Nat), s.workers[i]? = some (WorkerPhase.busy j) →
        Label.completeOp i ∈ ls1) ∧
    (∀ (u v : Pool), Step u Label.stopJoinOp v →
      (∀ w ∈ u.workers, w = WorkerPhase.exited) ∧ v.workers = []) := by
  refine ⟨trace_busy_mono ht hns hst, ?_, ?_⟩
  · intro ls1 ls2 heq i j hb
    subst heq
    rw [noStart_append, Bool.and_eq_true] at hns
    obtain ⟨u, h1, h2⟩ := trace_append_split ht
    cases h2 with
    | cons hjoin htail =>
        by_contra hc
        have hbu := trace_busy_until_complete h1 hns.1 hst i j hb hc
        cases hjoin with
        | stopJoinOp hall =>
            exact absurd (hall _ (List.getElem?_mem hbu)) (by simp)
  · intro u v hstep
    cases hstep with
    | stopJoinOp hall => exact ⟨hall, rfl⟩

/-- C2 witness: on `poolC` the concrete execution complete(0), dequeue(0)
(which exits the worker), join satisfies the theorem; its in-flight job's
completion indeed precedes the join. -/
theorem c2_stop_shutdown_witness :
    Label.completeOp 0 ∈ [Label.completeOp 0, Label.dequeueOp 0] := by
  have htr : Trace poolC
      [Label.completeOp 0, Label.dequeueOp 0, Label.stopJoinOp]
      { workerDequeue (workerComplete poolC 0) 0 with workers := [] } :=
    Trace.cons (Step.completeOp poolC 0 5 rfl)
      (Trace.cons
        (Step.dequeueOp (workerComplete poolC 0) 0 (by decide) (Or.inr (by decide)))
        (Trace.cons
          (Step.stopJoinOp (workerDequeue (workerComplete poolC 0) 0) (by decide))
          (Trace.refl _)))
  exact (c2_stop_shutdown htr rfl rfl).2.1
    [Label.completeOp 0, Label.dequeueOp 0] [] rfl 0 5 rfl

/-! ## C8: release of multiple waiters -/

/-- A running pool, one worker finishing the last job, two threads blocked
in `wait()`. -/
def poolD : Pool :=
  { stopped := false, waiting := true, queue := [], pending := 1,
    workers := [WorkerPhase.busy 3], blockedWaiters := 2, wokenWaiters := 0 }

/-- C8 counterexample: with two threads blocked in `wait()`, the
completion step that moves the counter to 0 executes a single
`notify_one` (line `m_counter_cv.notify_one()`), so only one waiter is
woken; the other remains blocked, and after the woken one returns
(resetting `m_waiting`), no `waitExitOp` step is enabled for it — the
waiters are not all released together when the counter hits 0. -/
theorem c8_waiters_counterexample :
    Step poolD (Label.completeOp 0) (workerComplete poolD 0) ∧
    (workerComplete poolD 0).pending = 0 ∧
    poolD.blockedWaiters = 2 ∧
    (workerComplete poolD 0).blockedWaiters = 1 ∧
    (workerComplete poolD 0).wokenWaiters = 1 ∧
    Step (workerComplete poolD 0) Label.waitExitOp
      (waitExit (workerComplete poolD 0)) ∧
    (waitExit (workerComplete poolD 0)).blockedWaiters = 1 ∧
    (waitExit (workerComplete poolD 0)).wokenWaiters = 0 ∧
    (waitExit (workerComplete poolD 0)).waiting = false ∧
    ¬ (∃ v : Pool,
        Step (waitExit (workerComplete poolD 0)) Label.waitExitOp v) := by
  refine ⟨Step.completeOp poolD 0 3 rfl, by decide, rfl, by decide, by decide,
    Step.waitExitOp _ (by decide) (by decide), by decide, by decide,
    by decide, ?_⟩
  rintro ⟨v, hv⟩
  cases hv with
  | waitExitOp h1 h2 => exact absurd h1 (by decide)

/-- C8 (amended): when a job's completion brings the pending-jobs counter
to 0 while `m_waiting` is set and at least one thread is blocked in
`wait()`, exactly one blocked waiter is notified (`notify_one`); the
number of blocked waiters drops by exactly one, not to zero. -/
theorem c8_waiters_amended (s : Pool) (i : Nat) (hw : s.waiting = true)
    (hp : s.pending = 1) (hb : 0 < s.blockedWaiters) :
    (workerComplete s i).pending = 0 ∧
    (workerComplete s i).blockedWaiters = s.blockedWaiters - 1 ∧
    (workerComplete s i).wokenWaiters = s.wokenWaiters + 1 := by
  have hc : s.pending - 1 = 0 ∧ s.waiting = true := ⟨by omega, hw⟩
  unfold workerComplete
  rw [if_pos hc, if_pos hb]
  refine ⟨?_, rfl, rfl⟩
  dsimp only
  omega

/-- C8 witness: the amended theorem applied to `poolD`. -/
theorem c8_waiters_witness :
    (workerComplete poolD 0).pending = 0 ∧
    (workerComplete poolD 0).blockedWaiters = 1 ∧
    (workerComplete poolD 0).wokenWaiters = 1 := by
  have h := c8_waiters_amended poolD 0 rfl rfl (by decide)
  exact ⟨h.1, h.2.1, h.2.2⟩

/-! ## C10: stop(clear_queue = false) -/

/-- C10: `stop(clear_queue = false)` leaves the queue contents and the
pending-jobs counter unchanged, setting only the state flag (before the
workers are joined); a worker reaching its dequeue point in the resulting
state exits its loop without removing a job even though the queue may be
non-empty; and along any subsequent execution containing no `start` call,
no worker ever starts executing — the retained jobs can only run after a
later successful `start`. -/
theorem c10_stop_keep_queue (s : Pool) (hrun : s.stopped = false) :
    ((stopBegin s false).1.queue = s.queue ∧
     (stopBegin s false).1.pending = s.pending ∧
     (stopBegin s false).1.stopped = true ∧
     (stopBegin s false).1.workers = s.workers ∧
     (stopBegin s false).2.1 = true) ∧
    (∀ (i : Nat) (s' : Pool),
      Step (stopBegin s false).1 (Label.dequeueOp i) s' →
      s'.queue = s.queue ∧ s'.workers[i]? = some WorkerPhase.exited) ∧
    (∀ (ls : List Label) (u : Pool),
      Trace (stopBegin s false).1 ls u → noStart ls = true →
      ∀ (i j : Nat), u.workers[i]? = some (WorkerPhase.busy j) →
        s.workers[i]? = some (WorkerPhase.busy j)) := by
  have hq : (stopBegin s false).1.queue = s.queue := by
    rw [stopBegin_of_run s false hrun]
    simp
  have hst : (stopBegin s false).1.stopped = true := by
    rw [stopBegin_of_run s false hrun]
  have hwk : (stopBegin s false).1.workers = s.workers := by
    rw [stopBegin_of_run s false hrun]
  refine ⟨⟨hq, by rw [stopBegin_of_run s false hrun], hst, hwk,
    by rw [stopBegin_of_run s false hrun]⟩, ?_, ?_⟩
  · intro i s' hstep
    cases hstep
    rename_i hpred hidle
    rw [workerDequeue_of_stopped _ i hst]
    obtain ⟨hlt, -⟩ := List.getElem?_eq_some.mp hidle
    constructor
    · show (stopBegin s false).1.queue = s.queue
      exact hq
    · show ((stopBegin s false).1.workers.set i WorkerPhase.exited)[i]? = _
      rw [List.getElem?_set_eq_of_lt _ hlt]
  · intro ls u htr hns i j hb
    have := trace_busy_mono htr hns hst i j hb
    rwa [hwk] at this

/-- C10 witness: stopping `poolB` (queue `[4]`) without clearing keeps the
job queued; the worker's dequeue step then exits instead of taking it. -/
theorem c10_stop_keep_queue_witness :
    (stopBegin poolB false).1.queue = [4] ∧
    (workerDequeue (stopBegin poolB false).1 0).queue = [4] ∧
    (workerDequeue (stopBegin poolB false).1 0).workers[0]?
      = some WorkerPhase.exited := by
  have h := c10_stop_keep_queue poolB rfl
  have h2 := h.2.1 0 (workerDequeue (stopBegin poolB false).1 0)
    (Step.dequeueOp (stopBegin poolB false).1 0 (by decide) (Or.inr (by decide)))
  exact ⟨h.1.1, h2.1, h2.2⟩
